import Mathlib

/-!
Shallow embedding of the bfloat16 software floating-point kernel
(`src/1-single-cycle/csrc/bf16_implementation.c`).

A bf16 value is a 16-bit pattern, modelled as a `Nat` (callers supply
values `< 2^16`).  Field extraction, the leading-zero counter, the
software multiplier and the four arithmetic operations are translated
from the C source.  C `uint16_t`/`uint32_t` arithmetic is modelled with
`Nat`; a `% 2^32` (or `Int.emod 2^32`) appears exactly where the C
computation can wrap, and is omitted where the operand bounds make the
operation exact.  C `int16_t`/`int32_t` exponent arithmetic is modelled
with `Int`.  The C `while`/`for` loops become structurally recursive
functions; loops whose trip count is data-dependent but bounded take an
explicit fuel argument that dominates the worst-case trip count.
-/

/-- Sign field: `bits >> 15 & 0x1`. -/
def signField (x : Nat) : Nat := (x >>> 15) &&& 0x1

/-- Biased-exponent field: `bits >> 7 & 0xFF`. -/
def expField (x : Nat) : Nat := (x >>> 7) &&& 0xFF

/-- Mantissa field: `bits & 0x7F`. -/
def mantField (x : Nat) : Nat := x &&& 0x7F

/-- NaN test `bf16_isnan`: exponent all ones and nonzero mantissa. -/
def bf16_isnan (a : Nat) : Bool := (a &&& 0x7F80 == 0x7F80) && (a &&& 0x7F != 0)

/-- Infinity test `bf16_isinf`: exponent all ones and zero mantissa. -/
def bf16_isinf (a : Nat) : Bool := (a &&& 0x7F80 == 0x7F80) && (a &&& 0x7F == 0)

/-- Zero test `bf16_iszero`: everything but the sign bit is zero. -/
def bf16_iszero (a : Nat) : Bool := a &&& 0x7FFF == 0

/-- One step of the binary-search leading-zero count: given the probe
width `c` and the running state `(n, x)`, shift `x` right by `c`; if the
shifted value is nonzero keep it and drop `n` by `c`. -/
def clzStep (c : Nat) (s : Nat × Nat) : Nat × Nat :=
  let y := s.2 >>> c
  if y ≠ 0 then (s.1 - c, y) else s

/-- Leading-zero count `clz`: the C do-while loop runs for probe
widths 16, 8, 4, 2, 1 and returns `n - x`. -/
def clz (x : Nat) : Nat :=
  let s := clzStep 1 (clzStep 2 (clzStep 4 (clzStep 8 (clzStep 16 (32, x)))))
  s.1 - s.2

/-- The `umul` shift-and-add loop: `fuel` bounds the trip count (the C
loop runs while `b ≠ 0`, at most 32 times for a 32-bit `b`); `a` and the
accumulator wrap at 2^32 as `uint32_t`. -/
def umulAux : Nat → Nat → Nat → Nat → Nat
  | 0, _, _, acc => acc
  | fuel + 1, a, b, acc =>
    if b = 0 then acc
    else
      umulAux fuel ((a <<< 1) % 2 ^ 32) (b >>> 1)
        (if b &&& 1 = 1 then (acc + a) % 2 ^ 32 else acc)

/-- Software 32-bit multiplication `umul`. -/
def umul (a b : Nat) : Nat := umulAux 32 a b 0

/-- GCC's 32-bit multiply hook `__mulsi3`, forwarding to `umul`. -/
def mulsi3 (a b : Nat) : Nat := umul a b

/-- Result encoding shared by the arithmetic operations:
`sign << 15 | (exp & 0xFF) << 7 | mant & 0x7F` (the exponent is a C
`int16_t`, so `& 0xFF` is `Int.emod 256`). -/
def encode (s : Nat) (e : Int) (m : Nat) : Nat :=
  (s <<< 15) ||| (((e.emod 256).toNat) <<< 7) ||| (m &&& 0x7F)

/-- The right-shift renormalization loop of `bf16_add`:
`result_mant >>= 1; if (++result_exp >= 255) return NaN;`, run `count`
times.  `none` models the overflow-to-NaN early return. -/
def renormDown : Nat → Nat → Int → Option (Nat × Int)
  | 0, m, e => some (m, e)
  | count + 1, m, e =>
    let m' := m >>> 1
    let e' := e + 1
    if 255 ≤ e' then none else renormDown count m' e'

/-- The left-shift renormalization loop of `bf16_add` (cancellation
case): while bit 7 is clear, `result_mant <<= 1; if (--result_exp <= 0)
return ZERO;`.  `none` models the flush-to-zero early return.  The fuel
dominates the trip count: the mantissa is nonzero and below 0x80 on
entry, so at most 7 shifts happen before bit 7 sets. -/
def renormUp : Nat → Nat → Int → Option (Nat × Int)
  | 0, m, e => some (m, e)
  | fuel + 1, m, e =>
    if m &&& 0x80 ≠ 0 then some (m, e)
    else
      let m' := m <<< 1
      let e' := e - 1
      if e' ≤ 0 then none else renormUp fuel m' e'

/-- The unsigned loop bound `32 - lz - 8` of the right-shift
renormalization in `bf16_add`: computed in `uint32_t`, so it wraps when
`lz > 24`. -/
def downCount (lz : Nat) : Nat := (((32 : Int) - lz - 8).emod (2 ^ 32)).toNat

/-- Tail of `bf16_add` after operand alignment: takes the two signs, the
common exponent and the two aligned mantissas `A` (from `a`) and `B`
(from `b`), adds or subtracts, renormalizes and encodes. -/
def addFinish (sa sb : Nat) (e : Int) (A B : Nat) : Nat :=
  if sa = sb then
    let rm := A + B
    match renormDown (downCount (clz rm)) rm e with
    | none => 0x7FC0
    | some (m, e') => encode sa e' m
  else
    let p := if B ≤ A then (sa, A - B) else (sb, B - A)
    let rs := p.1
    let rm := p.2
    if rm = 0 then 0x0000
    else if rm < 0x80 then
      match renormUp 32 rm e with
      | none => 0x0000
      | some (m, e') => encode rs e' m
    else
      match renormDown (downCount (clz rm)) rm e with
      | none => 0x7FC0
      | some (m, e') => encode rs e' m

/-- Finite-operand body of `bf16_add` (both operands finite and
nonzero): restore the implicit leading bits, align by shifting the
larger-exponent mantissa left by the exponent difference — discarding
the smaller operand entirely (returning `dflt`, the original larger
pattern) when the difference exceeds 8 — then finish in `addFinish`.
`da`/`db` are the original operand patterns for the early exits. -/
def addCore (da db : Nat) (sa ea ma sb eb mb : Nat) : Nat :=
  let ma' := if ea ≠ 0 then ma ||| 0x80 else ma
  let mb' := if eb ≠ 0 then mb ||| 0x80 else mb
  let ediff : Int := (ea : Int) - (eb : Int)
  if 0 < ediff then
    if 8 < ediff then da
    else addFinish sa sb (eb : Int) (ma' <<< ediff.toNat) mb'
  else if ediff < 0 then
    if ediff < -8 then db
    else addFinish sa sb (ea : Int) ma' (mb' <<< (-ediff).toNat)
  else addFinish sa sb (ea : Int) ma' mb'

/-- Addition `bf16_add`, translated branch-for-branch from the C
source; the post-special-case arithmetic lives in
`addCore`/`addFinish`. -/
def bf16_add (a b : Nat) : Nat :=
  let sa := signField a
  let sb := signField b
  let ea := expField a
  let eb := expField b
  let ma := mantField a
  let mb := mantField b
  if ea = 0xFF then
    if ma ≠ 0 then a
    else if eb = 0xFF then (if mb ≠ 0 ∨ sa = sb then b else 0x7FC0)
    else a
  else if eb = 0xFF then b
  else if ea = 0 ∧ ma = 0 then b
  else if eb = 0 ∧ mb = 0 then a
  else addCore a b sa ea ma sb eb mb

/-- Subtraction `bf16_sub`: flip the sign bit of `b` and add. -/
def bf16_sub (a b : Nat) : Nat := bf16_add a (b ^^^ 0x8000)

/-- Denormal normalization loop of `bf16_mul`: while bit 7 is clear,
shift the mantissa left (as `uint16_t`) and count the shifts (the C code
decrements `exp_adjust` once per shift).  The fuel dominates the trip
count: the mantissa is a nonzero 7-bit value on entry, so at most 7
shifts happen. -/
def normLoop : Nat → Nat → Nat × Nat
  | 0, m => (m, 0)
  | fuel + 1, m =>
    if m &&& 0x80 ≠ 0 then (m, 0)
    else
      let r := normLoop fuel ((m <<< 1) % 2 ^ 16)
      (r.1, r.2 + 1)

/-- Tail of `bf16_mul` after the mantissa product and combined-exponent
computation: saturate to signed infinity at exponent ≥ 255, flush to
signed zero below −6, produce a stored-exponent-0 result on (−6, 0]
with the mantissa shifted right by `1 − exp`, else encode normally. -/
def mulFinish (rs rm : Nat) (re : Int) : Nat :=
  if 255 ≤ re then (rs <<< 15) ||| 0x7F80
  else if re ≤ 0 then
    if re < -6 then rs <<< 15
    else encode rs 0 (rm >>> (1 - re).toNat)
  else encode rs re rm

/-- Finite-operand body of `bf16_mul`: normalize each operand
(denormals through `normLoop`, normals by setting the implicit bit),
multiply the two mantissas, combine the exponents with the
normalization adjustments, fold in the product carry bit, and finish in
`mulFinish`. -/
def mulCore (rs ea ma eb mb : Nat) : Nat :=
  let na := if ea = 0 then normLoop 16 ma else (ma ||| 0x80, 0)
  let ea' : Int := if ea = 0 then 1 else (ea : Int)
  let nb := if eb = 0 then normLoop 16 mb else (mb ||| 0x80, 0)
  let eb' : Int := if eb = 0 then 1 else (eb : Int)
  let rm := na.1 * nb.1
  let re : Int := ea' + eb' - 127 - na.2 - nb.2
  if rm &&& 0x8000 ≠ 0 then mulFinish rs ((rm >>> 8) &&& 0x7F) (re + 1)
  else mulFinish rs ((rm >>> 7) &&& 0x7F) re

/-- Multiplication `bf16_mul`, translated branch-for-branch from the C
source; the post-special-case arithmetic lives in
`mulCore`/`mulFinish`. -/
def bf16_mul (a b : Nat) : Nat :=
  let sa := signField a
  let sb := signField b
  let ea := expField a
  let eb := expField b
  let ma := mantField a
  let mb := mantField b
  let rs := sa ^^^ sb
  if ea = 0xFF then
    if ma ≠ 0 then a
    else if eb = 0 ∧ mb = 0 then 0x7FC0
    else (rs <<< 15) ||| 0x7F80
  else if eb = 0xFF then
    if mb ≠ 0 then b
    else if ea = 0 ∧ ma = 0 then 0x7FC0
    else (rs <<< 15) ||| 0x7F80
  else if (ea = 0 ∧ ma = 0) ∨ (eb = 0 ∧ mb = 0) then rs <<< 15
  else mulCore rs ea ma eb mb

/-- The 16-iteration restoring long-division loop of `bf16_div`: the
counter `j` is the number of iterations left, so the divisor is shifted
by `j − 1` (the C code shifts by `15 − i` with `i` counting up).
Returns the remaining dividend and the quotient. -/
def divLoop (divisor : Nat) : Nat → Nat → Nat → Nat × Nat
  | 0, dividend, q => (dividend, q)
  | j + 1, dividend, q =>
    let q' := q <<< 1
    if divisor <<< j ≤ dividend then
      divLoop divisor j (dividend - divisor <<< j) (q' ||| 1)
    else divLoop divisor j dividend q'

/-- Quotient renormalization loop of `bf16_div`: while bit 15 is clear
and the exponent exceeds 1, shift the quotient left and decrement the
exponent.  The fuel dominates the trip count (the exponent is below 512
on entry and strictly decreases). -/
def divNorm : Nat → Nat → Int → Nat × Int
  | 0, q, e => (q, e)
  | fuel + 1, q, e =>
    if q &&& 0x8000 = 0 ∧ 1 < e then divNorm fuel (q <<< 1) (e - 1)
    else (q, e)

/-- Finite-operand body of `bf16_div`: restore the implicit leading
bits, run the 16-step restoring division on the mantissas (dividend
pre-shifted left by 15), combine the exponents with the ±1 denormal
corrections, renormalize the quotient, and encode with saturation to
signed infinity at exponent ≥ 255 and flush to signed zero at
exponent ≤ 0. -/
def divCore (rs ea ma eb mb : Nat) : Nat :=
  let ma' := if ea ≠ 0 then ma ||| 0x80 else ma
  let mb' := if eb ≠ 0 then mb ||| 0x80 else mb
  let q0 := (divLoop mb' 16 (ma' <<< 15) 0).2
  let re0 : Int := (ea : Int) - (eb : Int) + 127
  let re1 : Int := if ea = 0 then re0 - 1 else re0
  let re2 : Int := if eb = 0 then re1 + 1 else re1
  let p := if q0 &&& 0x8000 ≠ 0 then (q0 >>> 8, re2)
           else
             let r := divNorm 512 q0 re2
             (r.1 >>> 8, r.2)
  let q := p.1 &&& 0x7F
  let re := p.2
  if 255 ≤ re then (rs <<< 15) ||| 0x7F80
  else if re ≤ 0 then rs <<< 15
  else (rs <<< 15) ||| ((re.emod 256).toNat <<< 7) ||| (q &&& 0x7F)

/-- Division `bf16_div`, translated branch-for-branch from the C
source; the post-special-case arithmetic lives in `divCore`. -/
def bf16_div (a b : Nat) : Nat :=
  let sa := signField a
  let sb := signField b
  let ea := expField a
  let eb := expField b
  let ma := mantField a
  let mb := mantField b
  let rs := sa ^^^ sb
  if eb = 0xFF then
    if mb ≠ 0 then b
    else if ea = 0xFF ∧ ma = 0 then 0x7FC0
    else rs <<< 15
  else if eb = 0 ∧ mb = 0 then
    if ea = 0 ∧ ma = 0 then 0x7FC0
    else (rs <<< 15) ||| 0x7F80
  else if ea = 0xFF then
    if ma ≠ 0 then a
    else (rs <<< 15) ||| 0x7F80
  else if ea = 0 ∧ ma = 0 then rs <<< 15
  else divCore rs ea ma eb mb

/-! ### Arithmetic bridges for the bit-field operations -/

theorem mantField_eq_mod (x : Nat) : mantField x = x % 128 := by
  have h := Nat.and_pow_two_sub_one_eq_mod x 7
  norm_num at h
  simpa [mantField] using h

theorem expField_eq (x : Nat) : expField x = x / 128 % 256 := by
  have h : x >>> 7 &&& 255 = x >>> 7 % 256 := Nat.and_pow_two_sub_one_eq_mod (x >>> 7) 8
  have h7 : x >>> 7 = x / 128 := by rw [Nat.shiftRight_eq_div_pow]
  rw [expField, h, h7]

theorem signField_eq (x : Nat) : signField x = x / 32768 % 2 := by
  have h : x >>> 15 &&& 1 = x >>> 15 % 2 := Nat.and_pow_two_sub_one_eq_mod (x >>> 15) 1
  have h15 : x >>> 15 = x / 32768 := by rw [Nat.shiftRight_eq_div_pow]
  rw [signField, h, h15]

theorem and_low15 (x : Nat) : x &&& 0x7FFF = x % 32768 := by
  have h := Nat.and_pow_two_sub_one_eq_mod x 15
  norm_num at h
  exact h

theorem mantField_lt (x : Nat) : mantField x < 128 := by
  rw [mantField_eq_mod]; omega

theorem expField_lt (x : Nat) : expField x < 256 := by
  rw [expField_eq]; omega

theorem signField_lt (x : Nat) : signField x < 2 := by
  rw [signField_eq]; omega

theorem shiftRight_xor (a b n : Nat) : (a ^^^ b) >>> n = (a >>> n) ^^^ (b >>> n) := by
  apply Nat.eq_of_testBit_eq
  intro i
  simp [Nat.testBit_shiftRight, Nat.testBit_xor]

/-- Flipping the sign bit leaves the mantissa field unchanged. -/
theorem mantField_negate (x : Nat) : mantField (x ^^^ 0x8000) = mantField x := by
  have hz : (0x8000 &&& 0x7F : Nat) = 0 := by decide
  simp only [mantField, Nat.and_xor_distrib_right, hz, Nat.xor_zero]

/-- Flipping the sign bit leaves the exponent field unchanged. -/
theorem expField_negate (x : Nat) : expField (x ^^^ 0x8000) = expField x := by
  have hz : ((0x8000 : Nat) >>> 7) &&& 0xFF = 0 := by decide
  simp only [expField, shiftRight_xor, Nat.and_xor_distrib_right, hz, Nat.xor_zero]

/-- Flipping the sign bit toggles the sign field. -/
theorem signField_negate (x : Nat) : signField (x ^^^ 0x8000) = signField x ^^^ 1 := by
  have hz : ((0x8000 : Nat) >>> 15) &&& 1 = 1 := by decide
  have hd : ∀ u v : Nat, (u ^^^ v) &&& 1 = (u &&& 1) ^^^ (v &&& 1) :=
    fun u v => Nat.and_xor_distrib_right
  simp only [signField, shiftRight_xor, hd, hz]

/-- The low 15 bits ignore a sign-bit flip. -/
theorem and_low15_negate (x : Nat) : (x ^^^ 0x8000) &&& 0x7FFF = x &&& 0x7FFF := by
  have hz : (0x8000 &&& 0x7FFF : Nat) = 0 := by decide
  simp only [Nat.and_xor_distrib_right, hz, Nat.xor_zero]

theorem xor_one_ne {s : Nat} (h : s < 2) : s ^^^ 1 ≠ s := by
  interval_cases s <;> decide

/-- Setting the implicit leading bit on a 7-bit mantissa adds 128. -/
theorem or_implicit_bit : ∀ m < 128, m ||| 0x80 = m + 128 := by decide

/-! ### Small enumerative facts about the loops -/

set_option maxRecDepth 2048 in
/-- Dividing a mantissa by itself: the restoring division loop yields
quotient `2^15` exactly (first iteration subtracts everything). -/
theorem divLoop_self_quot : ∀ M < 256, 0 < M → (divLoop M 16 (M <<< 15) 0).2 = 32768 := by
  decide

set_option maxRecDepth 2048 in
/-- Normalizing a nonzero 7-bit denormal mantissa takes at least one
shift. -/
theorem normLoop_shift_pos : ∀ m < 128, 0 < m → 1 ≤ (normLoop 16 m).2 := by decide

/-! ### Claim theorems -/

/-- C5: in multiply, after the mantissa product and combined-exponent
computation, a result exponent ≥ 255 returns signed infinity; an
exponent more than 6 below zero returns signed zero; an exponent in
(−6, 0] returns the pattern with stored exponent 0 and mantissa the
product mantissa right-shifted by `1 − exponent`. -/
theorem mul_tail_spec (rs rm : Nat) (re : Int) :
    (255 ≤ re → mulFinish rs rm re = (rs <<< 15) ||| 0x7F80) ∧
    (re < -6 → mulFinish rs rm re = rs <<< 15) ∧
    (-6 ≤ re → re ≤ 0 →
      mulFinish rs rm re = (rs <<< 15) ||| ((rm >>> (1 - re).toNat) &&& 0x7F)) := by
  have hz : (((0 : Int).emod 256).toNat <<< 7) = 0 := by decide
  unfold mulFinish encode
  refine ⟨fun h => ?_, fun h => ?_, fun h1 h2 => ?_⟩ <;>
    split_ifs <;> first | rfl | omega | (rw [hz, Nat.or_zero])

/-- Witness for C5 at concrete inputs: exponent 300 saturates, −9
flushes, −2 denormalizes. -/
theorem mul_tail_spec_witness :
    mulFinish 1 85 300 = (1 <<< 15) ||| 0x7F80 ∧
      mulFinish 1 85 (-9) = 1 <<< 15 ∧
      mulFinish 1 85 (-2) = (1 <<< 15) ||| ((85 >>> 3) &&& 0x7F) := by
  refine ⟨(mul_tail_spec 1 85 300).1 (by decide),
          (mul_tail_spec 1 85 (-9)).2.1 (by decide),
          ?_⟩
  have h := (mul_tail_spec 1 85 (-2)).2.2 (by decide) (by decide)
  simpa using h

set_option maxRecDepth 4000 in
/-- C2 (failing input): adding the two smallest positive denormals hits
the unsigned wrap of the loop bound `32 - clz - 8` (clz = 30 here), so
the renormalization loop runs although the sum 2 fits the 8-bit window,
and it increments the exponent all the way to 255: the kernel returns
the canonical NaN instead of encoding the sum with the common
exponent 0. -/
theorem add_denormal_pair_returns_nan : bf16_add 0x0001 0x0001 = 0x7FC0 := by decide

/-- C1 (counterexample): dividing a NaN by infinity does not propagate
the NaN; the infinity-divisor branch wins and returns a signed zero. -/
theorem div_nan_by_inf_is_zero :
    bf16_isnan 0x7FC0 = true ∧ bf16_div 0x7FC0 0x7F80 = 0x0000 ∧
      bf16_isnan (bf16_div 0x7FC0 0x7F80) = false ∧
      bf16_div 0x7FC0 0x0000 = 0x7F80 := by decide

/-- C3 (counterexample): `add(+0, −0) = −0` but `add(−0, +0) = +0`; the
"first operand is zero" early exit returns the second operand, so
bit-for-bit commutativity fails on the two finite zero patterns. -/
theorem add_signed_zeros_not_commutative :
    expField 0x0000 ≠ 255 ∧ expField 0x8000 ≠ 255 ∧
      bf16_add 0x0000 0x8000 = 0x8000 ∧ bf16_add 0x8000 0x0000 = 0x0000 ∧
      bf16_add 0x0000 0x8000 ≠ bf16_add 0x8000 0x0000 := by decide

/-- C4 (counterexample): for a NaN pattern `add(x, negate x)` returns
the NaN itself, and for an infinity it returns the canonical NaN —
neither is a zero pattern. -/
theorem add_negate_nan_not_zero :
    bf16_add 0x7FC0 (0x7FC0 ^^^ 0x8000) = 0x7FC0 ∧ 0x7FC0 &&& 0x7FFF ≠ 0 ∧
      bf16_add 0x7F80 (0x7F80 ^^^ 0x8000) = 0x7FC0 := by decide


/-- Core of C9: with both stored exponents 0 and nonzero mantissas,
each `normLoop` shifts at least once, so the combined exponent is at
most −127 and both `mulFinish` branches flush to the signed zero. -/
theorem mulCore_denormals (rs ma mb : Nat) (hma : 0 < ma) (hmA : ma < 128)
    (hmb : 0 < mb) (hmB : mb < 128) : mulCore rs 0 ma 0 mb = rs <<< 15 := by
  have hka := normLoop_shift_pos ma hmA hma
  have hkb := normLoop_shift_pos mb hmB hmb
  simp only [mulCore, mulFinish, if_true]
  set na := normLoop 16 ma with hna
  set nb := normLoop 16 mb with hnb
  split_ifs with h1 h2 h3 h4 h5 h6 <;> omega

/-- C9: multiplying two denormals always flushes to the signed zero
whose sign bit is the XOR of the operand sign bits. -/
theorem mul_denormals_flush (a b : Nat)
    (hea : expField a = 0) (hma : mantField a ≠ 0)
    (heb : expField b = 0) (hmb : mantField b ≠ 0) :
    bf16_mul a b = (signField a ^^^ signField b) <<< 15 := by
  simp only [bf16_mul, hea, heb, if_true, if_false, true_and, false_or, or_false]
  split_ifs with h1 <;> first
    | exact (‹False›).elim
    | omega
    | exact mulCore_denormals _ _ _ (Nat.pos_of_ne_zero hma) (mantField_lt a)
        (Nat.pos_of_ne_zero hmb) (mantField_lt b)

/-- Witness for C9: the two smallest-magnitude denormals of opposite
sign multiply to −0. -/
theorem mul_denormals_flush_witness :
    expField 0x8001 = 0 ∧ mantField 0x8001 ≠ 0 ∧ expField 0x0001 = 0 ∧
      mantField 0x0001 ≠ 0 ∧
      bf16_mul 0x8001 0x0001 = (signField 0x8001 ^^^ signField 0x0001) <<< 15 :=
  ⟨by decide, by decide, by decide, by decide,
    mul_denormals_flush 0x8001 0x0001 (by decide) (by decide) (by decide) (by decide)⟩

/-- Core of C7: dividing a mantissa by itself gives quotient exactly
`2^15`; the exponent corrections cancel, leaving biased exponent 127
and mantissa 0, i.e. the pattern of 1.0 with the given sign. -/
theorem divCore_self (rs e m : Nat) (hm : m < 128) (hnz : ¬(e = 0 ∧ m = 0)) :
    divCore rs e m e m = (rs <<< 15) ||| 0x3F80 := by
  have c2 : (((32768 : Nat) &&& 32768 ≠ 0)) = True := by decide
  have d1 : ((Int.toNat 127) <<< 7 : Nat) = 16256 := by decide
  have d2 : (((32768 : Nat) >>> 8) &&& 127 &&& 127) = 0 := by decide
  by_cases h0 : e = 0
  · subst h0
    have hmpos : 0 < m := by omega
    have hq := divLoop_self_quot m (by omega) hmpos
    have c1 : (((0 : Nat) ≠ 0)) = False := by decide
    simp only [divCore, c1, if_false, hq, c2, if_true]
    norm_num
    rw [d1, d2, Nat.or_zero]
  · have hq := divLoop_self_quot (m ||| 128) (by rw [or_implicit_bit m hm]; omega)
      (by rw [or_implicit_bit m hm]; omega)
    have c1 : ((e ≠ 0)) = True := by simp [h0]
    have c3 : ((e = 0)) = False := by simp [h0]
    simp only [divCore, c1, if_true, hq, c2, c3, if_false]
    norm_num
    rw [d1, d2, Nat.or_zero]

/-- C7: dividing any finite nonzero pattern by itself yields exactly
`0x3F80` (+1.0), whose stored exponent 127 is strictly between 0 and
255 (a Normal value of magnitude exactly 1, hence within one mantissa
unit of 1.0). -/
theorem div_self_one (x : Nat) (hf : expField x ≠ 255)
    (hnz : ¬(expField x = 0 ∧ mantField x = 0)) :
    bf16_div x x = 0x3F80 ∧ 0 < expField (bf16_div x x) ∧
      expField (bf16_div x x) < 255 := by
  have main : bf16_div x x = 0x3F80 := by
    have hc := divCore_self 0 (expField x) (mantField x) (mantField_lt x) hnz
    simp only [bf16_div]
    split_ifs <;> first
      | exact (‹False›).elim
      | omega
      | (rw [Nat.xor_self, hc]; decide)
      | (rw [hc]; decide)
  refine ⟨main, ?_, ?_⟩ <;> rw [main] <;> decide

/-- Witness for C7 at x = 3.0 (0x4040). -/
theorem div_self_one_witness :
    bf16_div 0x4040 0x4040 = 0x3F80 ∧ 0 < expField (bf16_div 0x4040 0x4040) ∧
      expField (bf16_div 0x4040 0x4040) < 255 :=
  div_self_one 0x4040 (by decide) (by decide)

/-- C6: for finite nonzero operands whose stored-exponent difference
exceeds 8, the smaller-exponent operand is discarded and the
larger-exponent operand's pattern is returned unchanged. -/
theorem add_discards_small_operand (a b : Nat)
    (hfa : expField a ≠ 255) (hfb : expField b ≠ 255)
    (hza : ¬(expField a = 0 ∧ mantField a = 0))
    (hzb : ¬(expField b = 0 ∧ mantField b = 0)) :
    (expField b + 8 < expField a → bf16_add a b = a) ∧
    (expField a + 8 < expField b → bf16_add a b = b) := by
  constructor <;> intro h <;> simp only [bf16_add, addCore] <;>
    split_ifs <;> first | exact (‹False›).elim | omega

/-- Witness for C6: exponent 20 against exponent 1. -/
theorem add_discards_small_operand_witness :
    expField 0x0080 + 8 < expField 0x0A00 ∧ bf16_add 0x0A00 0x0080 = 0x0A00 :=
  ⟨by decide, (add_discards_small_operand 0x0A00 0x0080 (by decide) (by decide)
      (by decide) (by decide)).1 (by decide)⟩

/-- C1 (amended): with a NaN among the operands, a NaN divisor is
returned as-is (`bf16_div a b = b`), and a NaN dividend is returned
as-is (`bf16_div a b = a`) provided the divisor's exponent field is not
255 and the divisor is not a zero pattern.  The two exceptions are also
pinned exactly: an infinity divisor wins even over a NaN dividend and
returns the XOR-signed zero, and a zero-pattern divisor returns the
XOR-signed infinity. -/
theorem div_nan_propagation (a b : Nat)
    (hnan : (expField a = 255 ∧ mantField a ≠ 0) ∨
      (expField b = 255 ∧ mantField b ≠ 0)) :
    (expField b = 255 ∧ mantField b ≠ 0 → bf16_div a b = b) ∧
    (expField a = 255 ∧ mantField a ≠ 0 → expField b ≠ 255 →
      ¬(expField b = 0 ∧ mantField b = 0) → bf16_div a b = a) ∧
    (expField b = 255 ∧ mantField b = 0 →
      bf16_div a b = (signField a ^^^ signField b) <<< 15) ∧
    (expField b = 0 ∧ mantField b = 0 →
      bf16_div a b = ((signField a ^^^ signField b) <<< 15) ||| 0x7F80) := by
  refine ⟨fun hb => ?_, fun ha hb hbz => ?_, fun hb => ?_, fun hb => ?_⟩
  · simp only [bf16_div]
    split_ifs <;> first | exact (‹False›).elim | omega
  · simp only [bf16_div]
    split_ifs <;> first | exact (‹False›).elim | omega
  · have ha : expField a = 255 ∧ mantField a ≠ 0 := by
      rcases hnan with h | h
      · exact h
      · exact absurd hb.2 (by omega)
    simp only [bf16_div]
    split_ifs <;> first | exact (‹False›).elim | omega
  · have ha : expField a = 255 ∧ mantField a ≠ 0 := by
      rcases hnan with h | h
      · exact h
      · exact absurd hb.1 (by omega)
    simp only [bf16_div]
    split_ifs <;> first | exact (‹False›).elim | omega

/-- Witness for C1 (amended): a payload NaN divisor is returned as-is
by 1.0 ÷ NaN, and a payload NaN dividend is returned as-is by
NaN ÷ 1.0. -/
theorem div_nan_propagation_witness :
    bf16_div 0x3F80 0x7FC1 = 0x7FC1 ∧ bf16_div 0x7F81 0x3F80 = 0x7F81 :=
  ⟨(div_nan_propagation 0x3F80 0x7FC1
      (Or.inr ⟨by decide, by decide⟩)).1 ⟨by decide, by decide⟩,
   (div_nan_propagation 0x7F81 0x3F80
      (Or.inl ⟨by decide, by decide⟩)).2.1 ⟨by decide, by decide⟩
     (by decide) (by decide)⟩

/-- Opposite signs with equal aligned mantissas cancel to the canonical
zero in `addFinish`. -/
theorem addFinish_cancel (sa sb : Nat) (e : Int) (M : Nat) (hs : sa ≠ sb) :
    addFinish sa sb e M M = 0 := by
  simp only [addFinish]
  split_ifs <;> first | exact (‹False›).elim | omega

/-- Equal exponent/mantissa fields with opposite signs cancel to the
canonical zero in `addCore`. -/
theorem addCore_cancel (da db sa sb e m : Nat) (hs : sa ≠ sb) :
    addCore da db sa e m sb e m = 0 := by
  simp only [addCore]
  split_ifs <;> first
    | exact (‹False›).elim
    | omega
    | exact addFinish_cancel _ _ _ _ hs

/-- C4 (amended): for every pattern whose exponent field is not 255,
adding the sign-flipped pattern yields a zero pattern (exponent and
mantissa fields both 0). -/
theorem add_negate_zero (x : Nat) (hf : expField x ≠ 255) :
    bf16_add x (x ^^^ 0x8000) &&& 0x7FFF = 0 := by
  by_cases hz : expField x = 0 ∧ mantField x = 0
  · have hres : bf16_add x (x ^^^ 0x8000) = x ^^^ 0x8000 := by
      simp only [bf16_add, expField_negate, mantField_negate, signField_negate]
      split_ifs <;> first | exact (‹False›).elim | omega
    rw [hres, and_low15_negate, and_low15]
    have he := expField_eq x
    have hm := mantField_eq_mod x
    omega
  · have hres : bf16_add x (x ^^^ 0x8000) = 0 := by
      simp only [bf16_add, expField_negate, mantField_negate, signField_negate]
      split_ifs <;> first
        | exact (‹False›).elim
        | omega
        | exact addCore_cancel _ _ _ _ _ _ (Ne.symm (xor_one_ne (signField_lt x)))
    rw [hres]
    decide

/-- Witness for C4 (amended) at x = 3.0. -/
theorem add_negate_zero_witness :
    expField 0x4040 ≠ 255 ∧ bf16_add 0x4040 (0x4040 ^^^ 0x8000) &&& 0x7FFF = 0 :=
  ⟨by decide, add_negate_zero 0x4040 (by decide)⟩

/-- Halving drops `Nat.log2` by one (for arguments at least 2). -/
theorem log2_half (y : Nat) (h : 2 ≤ y) : Nat.log2 (y / 2) = Nat.log2 y - 1 := by
  conv_rhs => rw [Nat.log2]
  simp [h]

/-- Right-shifting by `c` drops `Nat.log2` by `c` when `2^c ≤ x`. -/
theorem log2_shiftRight (c : Nat) : ∀ x : Nat, 2 ^ c ≤ x →
    Nat.log2 (x >>> c) = Nat.log2 x - c := by
  induction c with
  | zero => intro x _; simp [Nat.shiftRight]
  | succ c ih =>
    intro x hx
    have hpow : (2 : Nat) ^ (c + 1) = 2 ^ c * 2 := pow_succ 2 c
    have hppos : (0 : Nat) < 2 ^ c := Nat.pos_pow_of_pos c (by omega)
    have hc : 2 ^ c ≤ x := by omega
    have hxpos : 0 < x := by omega
    have h2 : 2 ≤ x >>> c := by
      rw [Nat.shiftRight_eq_div_pow]
      rw [Nat.le_div_iff_mul_le hppos]
      omega
    have hlog : c + 1 ≤ Nat.log2 x := by
      rw [Nat.le_log2 (by omega)]
      exact hx
    rw [Nat.shiftRight_succ, log2_half _ h2, ih x hc]
    omega

/-- Invariant of one probe step of `clz`: the kept value stays
positive, fits in `c` bits, and `n + log2 x₀` is preserved as
`32 + log2 x` (where `L0 = log2 x₀` is the original logarithm). -/
theorem clzStep_spec (c : Nat) (s : Nat × Nat) (L0 : Nat) (hx : 0 < s.2)
    (hxc : s.2 < 2 ^ (2 * c)) (hinv : s.1 + L0 = 32 + Nat.log2 s.2) (hL0 : L0 ≤ 31) :
    0 < (clzStep c s).2 ∧ (clzStep c s).2 < 2 ^ c ∧
      (clzStep c s).1 + L0 = 32 + Nat.log2 (clzStep c s).2 := by
  have hppos : (0 : Nat) < 2 ^ c := Nat.pos_pow_of_pos c (by omega)
  have hsq : (2 : Nat) ^ (2 * c) = 2 ^ c * 2 ^ c := by rw [two_mul, pow_add]
  simp only [clzStep]
  by_cases hy : s.2 >>> c ≠ 0
  · rw [if_pos hy]
    have hge : 2 ^ c ≤ s.2 := by
      by_contra hlt
      push_neg at hlt
      exact hy (by rw [Nat.shiftRight_eq_div_pow]; exact Nat.div_eq_of_lt hlt)
    have hlt : s.2 >>> c < 2 ^ c := by
      rw [Nat.shiftRight_eq_div_pow]
      rw [Nat.div_lt_iff_lt_mul hppos]
      omega
    have hlog := log2_shiftRight c s.2 hge
    have hclog : c ≤ Nat.log2 s.2 := by
      rw [Nat.le_log2 (by omega)]
      exact hge
    refine ⟨Nat.pos_of_ne_zero hy, hlt, ?_⟩
    simp only []
    omega
  · push_neg at hy
    rw [if_neg (by simpa using hy)]
    have hlt : s.2 < 2 ^ c := by
      by_contra hge
      push_neg at hge
      have h1 : 1 ≤ s.2 >>> c := by
        rw [Nat.shiftRight_eq_div_pow]
        exact (Nat.one_le_div_iff hppos).mpr hge
      omega
    exact ⟨hx, hlt, hinv⟩

/-- C8: `clz` returns the number of leading zero bits of a 32-bit
value: `31 - log2 x` for nonzero `x`, and 32 for `x = 0`. -/
theorem clz_spec (x : Nat) (hx : x < 2 ^ 32) :
    clz x = if x = 0 then 32 else 31 - Nat.log2 x := by
  by_cases h0 : x = 0
  · subst h0
    rw [if_pos rfl]
    decide
  · rw [if_neg h0]
    have hxpos := Nat.pos_of_ne_zero h0
    have hL : Nat.log2 x ≤ 31 := by
      have := (Nat.log2_lt h0).mpr hx
      omega
    obtain ⟨a1, a2, a3⟩ := clzStep_spec 16 (32, x) (Nat.log2 x) hxpos hx rfl hL
    obtain ⟨b1, b2, b3⟩ := clzStep_spec 8 _ (Nat.log2 x) a1 a2 a3 hL
    obtain ⟨c1, c2, c3⟩ := clzStep_spec 4 _ (Nat.log2 x) b1 b2 b3 hL
    obtain ⟨d1, d2, d3⟩ := clzStep_spec 2 _ (Nat.log2 x) c1 c2 c3 hL
    obtain ⟨e1, e2, e3⟩ := clzStep_spec 1 _ (Nat.log2 x) d1 d2 d3 hL
    have hlog1 : Nat.log2 1 = 0 := by
      have h2 := (Nat.log2_lt (by omega : (1:Nat) ≠ 0)).mpr (by omega : (1:Nat) < 2 ^ 1)
      omega
    simp only [clz]
    have he2 : (clzStep 1 (clzStep 2 (clzStep 4 (clzStep 8 (clzStep 16 (32, x)))))).2 = 1 := by
      omega
    rw [he2] at e3
    rw [hlog1] at e3
    omega

/-- Witness for C8 at x = 6 (leading 29 zero bits). -/
theorem clz_spec_witness :
    6 < 2 ^ 32 ∧ clz 6 = if (6 : Nat) = 0 then 32 else 31 - Nat.log2 6 :=
  ⟨by decide, clz_spec 6 (by decide)⟩

/-- Pulling an inner `% M` out of a sum-of-product term. -/
theorem mod_add_mul_mod (M u v w : Nat) :
    (u + v % M * w) % M = (u + v * w) % M := by
  rw [Nat.add_mod, Nat.mod_mul_mod, ← Nat.add_mod]

/-- The shift-and-add loop computes `acc + a * b` modulo `2^32`
(invariant over the remaining multiplier bits). -/
theorem umulAux_spec : ∀ (f a b acc : Nat), b < 2 ^ f → a < 2 ^ 32 → acc < 2 ^ 32 →
    umulAux f a b acc = (acc + a * b) % 2 ^ 32 := by
  intro f
  induction f with
  | zero =>
    intro a b acc hb _ hacc
    have hb0 : b = 0 := by omega
    subst hb0
    simp only [umulAux]
    omega
  | succ f ih =>
    intro a b acc hb ha hacc
    simp only [umulAux]
    by_cases hb0 : b = 0
    · rw [if_pos hb0]
      subst hb0
      omega
    · rw [if_neg hb0]
      have hband : b &&& 1 = b % 2 := Nat.and_pow_two_sub_one_eq_mod b 1
      have hshift : b >>> 1 = b / 2 := by
        rw [Nat.shiftRight_eq_div_pow]
      have hbdiv : b / 2 < 2 ^ f := by
        have hp : (2 : Nat) ^ (f + 1) = 2 ^ f * 2 := pow_succ 2 f
        omega
      have ha2 : (a <<< 1) % 2 ^ 32 < 2 ^ 32 := Nat.mod_lt _ (by norm_num)
      have hsl : a <<< 1 = a * 2 := by
        rw [Nat.shiftLeft_eq]
      rw [hband, hshift]
      by_cases hpar : b % 2 = 1
      · rw [if_pos hpar]
        rw [ih _ _ _ hbdiv ha2 (Nat.mod_lt _ (by norm_num))]
        rw [hsl, mod_add_mul_mod, Nat.mod_add_mod]
        have harith : acc + a + a * 2 * (b / 2) = acc + a * b := by
          have hb1 : b = 2 * (b / 2) + 1 := by omega
          conv_rhs => rw [hb1]
          ring
        rw [harith]
      · rw [if_neg hpar]
        rw [ih _ _ _ hbdiv ha2 hacc]
        rw [hsl, mod_add_mul_mod]
        have harith : acc + a * 2 * (b / 2) = acc + a * b := by
          have hb1 : b = 2 * (b / 2) := by omega
          conv_rhs => rw [hb1]
          ring
        rw [harith]

/-- C10: `__mulsi3` (via `umul`) computes the product modulo `2^32`
for all 32-bit operands. -/
theorem mulsi3_spec (a b : Nat) (ha : a < 2 ^ 32) (hb : b < 2 ^ 32) :
    mulsi3 a b = a * b % 2 ^ 32 := by
  have h := umulAux_spec 32 a b 0 hb ha (by norm_num)
  simpa [mulsi3, umul] using h

/-- Witness for C10 at a product that wraps modulo `2^32`. -/
theorem mulsi3_spec_witness :
    (3000000000 : Nat) < 2 ^ 32 ∧ 7 < 2 ^ 32 ∧
      mulsi3 3000000000 7 = 3000000000 * 7 % 2 ^ 32 :=
  ⟨by decide, by decide, mulsi3_spec 3000000000 7 (by decide) (by decide)⟩

/-- The post-alignment tail of addition is symmetric in its two
aligned operands (the equal-mantissa cancellation case returns the
canonical zero from either side). -/
theorem addFinish_comm (sa sb : Nat) (e : Int) (A B : Nat) :
    addFinish sa sb e A B = addFinish sb sa e B A := by
  simp only [addFinish]
  by_cases hs : sa = sb
  · rw [if_pos hs, if_pos hs.symm, Nat.add_comm B A, hs]
  · rw [if_neg hs, if_neg (Ne.symm hs)]
    rcases Nat.lt_trichotomy A B with hlt | heq | hgt
    · have hp : (if B ≤ A then (sa, A - B) else (sb, B - A)) = (sb, B - A) :=
        if_neg (by omega)
      have hq : (if A ≤ B then (sb, B - A) else (sa, A - B)) = (sb, B - A) :=
        if_pos (by omega)
      rw [hp, hq]
    · subst heq
      have hp : (if A ≤ A then (sa, A - A) else (sb, A - A)) = (sa, A - A) :=
        if_pos (le_refl A)
      have hq : (if A ≤ A then (sb, A - A) else (sa, A - A)) = (sb, A - A) :=
        if_pos (le_refl A)
      rw [hp, hq]
      simp [Nat.sub_self]
    · have hp : (if B ≤ A then (sa, A - B) else (sb, B - A)) = (sa, A - B) :=
        if_pos (by omega)
      have hq : (if A ≤ B then (sb, B - A) else (sa, A - B)) = (sa, A - B) :=
        if_neg (by omega)
      rw [hp, hq]

/-- The finite-operand body of multiplication is symmetric in the two
operands' fields. -/
theorem mulCore_comm (rs ea ma eb mb : Nat) :
    mulCore rs ea ma eb mb = mulCore rs eb mb ea ma := by
  simp only [mulCore]
  set na := (if ea = 0 then normLoop 16 ma else (ma ||| 0x80, 0)) with hna
  set nb := (if eb = 0 then normLoop 16 mb else (mb ||| 0x80, 0)) with hnb
  set ea' := (if ea = 0 then (1 : Int) else (ea : Int)) with hea
  set eb' := (if eb = 0 then (1 : Int) else (eb : Int)) with heb
  rw [Nat.mul_comm na.1 nb.1]
  have hre : ea' + eb' - 127 - ↑na.2 - ↑nb.2 = eb' + ea' - 127 - ↑nb.2 - ↑na.2 := by
    ring
  rw [hre]

/-- The finite-operand body of addition is symmetric: the two
alignment branches mirror each other and `addFinish` commutes. -/
theorem addCore_comm (da db sa ea ma sb eb mb : Nat) :
    addCore da db sa ea ma sb eb mb = addCore db da sb eb mb sa ea ma := by
  simp only [addCore]
  rcases Int.lt_trichotomy ((ea : Int) - eb) 0 with hlt | heq | hgt
  · rw [if_neg (by omega : ¬(0 : Int) < (ea : Int) - eb), if_pos (by omega :
      (ea : Int) - eb < 0), if_pos (by omega : (0 : Int) < (eb : Int) - ea)]
    by_cases h8 : (ea : Int) - eb < -8
    · rw [if_pos h8, if_pos (by omega : (8 : Int) < (eb : Int) - ea)]
    · rw [if_neg h8, if_neg (by omega : ¬(8 : Int) < (eb : Int) - ea)]
      rw [show (-((ea : Int) - eb)).toNat = ((eb : Int) - ea).toNat from by rw [neg_sub]]
      exact addFinish_comm sa sb _ _ _
  · rw [if_neg (by omega : ¬(0 : Int) < (ea : Int) - eb), if_neg (by omega :
      ¬(ea : Int) - eb < 0), if_neg (by omega : ¬(0 : Int) < (eb : Int) - ea),
      if_neg (by omega : ¬(eb : Int) - ea < 0)]
    rw [show ((ea : Int)) = ((eb : Int)) from by omega]
    exact addFinish_comm sa sb _ _ _
  · rw [if_pos hgt, if_neg (by omega : ¬(0 : Int) < (eb : Int) - ea), if_pos
      (by omega : (eb : Int) - ea < 0)]
    by_cases h8 : (8 : Int) < (ea : Int) - eb
    · rw [if_pos h8, if_pos (by omega : (eb : Int) - ea < -8)]
    · rw [if_neg h8, if_neg (by omega : ¬(eb : Int) - ea < -8)]
      rw [show (-((eb : Int) - ea)).toNat = ((ea : Int) - eb).toNat from by rw [neg_sub]]
      exact addFinish_comm sa sb _ _ _

/-- The source's zero predicate in terms of the exponent and mantissa
fields. -/
theorem iszero_iff_fields (x : Nat) :
    bf16_iszero x = true ↔ (expField x = 0 ∧ mantField x = 0) := by
  rw [bf16_iszero, beq_iff_eq, and_low15, expField_eq, mantField_eq_mod]
  constructor
  · intro h
    omega
  · intro h
    omega

/-- Multiplication commutes bit-for-bit when the second operand is
finite (the special-case dispatch is symmetric). -/
theorem bf16_mul_comm_aux (a b : Nat) (hfa : expField a ≠ 255)
    (hfb : expField b ≠ 255) : bf16_mul a b = bf16_mul b a := by
  simp only [bf16_mul]
  rw [Nat.xor_comm (signField b) (signField a)]
  split_ifs <;> first
    | exact (‹False›).elim
    | omega
    | exact mulCore_comm _ _ _ _ _
    | rfl

/-- Addition commutes bit-for-bit for finite operands except on the
pair of opposite-signed zeros. -/
theorem bf16_add_comm_aux (a b : Nat)
    (hfa : expField a ≠ 255) (hfb : expField b ≠ 255)
    (hz : ¬(expField a = 0 ∧ mantField a = 0 ∧ expField b = 0 ∧ mantField b = 0 ∧
      a ≠ b)) : bf16_add a b = bf16_add b a := by
  by_cases hza : expField a = 0 ∧ mantField a = 0
  · by_cases hzb : expField b = 0 ∧ mantField b = 0
    · have hab : a = b := by tauto
      subst hab
      rfl
    · have h1 : bf16_add a b = b := by
        simp only [bf16_add]
        split_ifs <;> first | exact (‹False›).elim | omega
      have h2 : bf16_add b a = b := by
        simp only [bf16_add]
        split_ifs <;> first | exact (‹False›).elim | omega
      rw [h1, h2]
  · by_cases hzb : expField b = 0 ∧ mantField b = 0
    · have h1 : bf16_add a b = a := by
        simp only [bf16_add]
        split_ifs <;> first | exact (‹False›).elim | omega
      have h2 : bf16_add b a = a := by
        simp only [bf16_add]
        split_ifs <;> first | exact (‹False›).elim | omega
      rw [h1, h2]
    · simp only [bf16_add]
      split_ifs <;> first
        | exact (‹False›).elim
        | omega
        | exact addCore_comm _ _ _ _ _ _ _ _

/-- C3 (amended): for finite non-NaN operands, multiplication commutes
bit-for-bit, and addition commutes bit-for-bit unless the operands are
the two zero patterns of opposite sign. -/
theorem addmul_comm (a b : Nat) (hfa : expField a ≠ 255) (hfb : expField b ≠ 255) :
    bf16_mul a b = bf16_mul b a ∧
      (¬(bf16_iszero a = true ∧ bf16_iszero b = true ∧ a ≠ b) →
        bf16_add a b = bf16_add b a) := by
  refine ⟨bf16_mul_comm_aux a b hfa hfb, fun hz => ?_⟩
  apply bf16_add_comm_aux a b hfa hfb
  rw [iszero_iff_fields, iszero_iff_fields] at hz
  tauto

/-- Witness for C3 (amended) at 1.0 and 2.0. -/
theorem addmul_comm_witness :
    bf16_mul 0x3F80 0x4000 = bf16_mul 0x4000 0x3F80 ∧
      (¬(bf16_iszero 0x3F80 = true ∧ bf16_iszero 0x4000 = true ∧
          (0x3F80 : Nat) ≠ 0x4000) →
        bf16_add 0x3F80 0x4000 = bf16_add 0x4000 0x3F80) :=
  addmul_comm 0x3F80 0x4000 (by decide) (by decide)
